import Mathlib

/-!
Shallow embedding of the deal.II geometric-multigrid V-cycle
(`deal.II/include/multigrid/multigrid.templates.h`): the recursive engine
`Multigrid::level_mgstep` and the driver `Multigrid::vcycle`, over vectors
modelled as lists of integers (exact arithmetic).

The operator bindings (pre/post smoother, coarse solver, transfer operator,
per-level system matrix, optional edge matrices) are external collaborators
of this component; they are carried as abstract function fields whose calling
convention mirrors the C++ signatures: the destination vector is passed in and
the new destination value is returned.  Contracts the source relies on
(e.g. `restrict_and_add` accumulating into its destination, destination shape
preservation) appear as explicit hypotheses of the theorems that need them.

A ghost `log` field of the state records each operator invocation
(operator tag, level argument) and each entry into a recursion frame; the
log has no influence on the numeric state and exists only to make
"operator X is invoked at level l" claims statable.
-/

/-- Numeric vector: entries in exact arithmetic.  Every vector operation the
engine performs is a ring operation (zeroing, addition, subtraction,
scaling), so integer entries model the exact-arithmetic semantics. -/
abbrev Vec := List ℤ

/-- `v = 0.`: set every entry of `v` to zero, keeping its shape. -/
def vzero (v : Vec) : Vec := v.map (fun _ => 0)

/-- `a += b`, elementwise. -/
def vadd (a b : Vec) : Vec := List.zipWith (· + ·) a b

/-- `a -= b`, elementwise. -/
def vsub (a b : Vec) : Vec := List.zipWith (· - ·) a b

/-- Scalar scaling of a vector. -/
def smul (c : ℤ) (v : Vec) : Vec := v.map (fun x => c * x)

/-- Ghost tags naming the operator call sites of `level_mgstep`, plus a
marker for entering a recursion frame. -/
inductive Op
  | frameEnter | preS | postS | coarseOp | matV | restrictAdd | prolong
  | edgeDownV | edgeUpT
  deriving DecidableEq

/-- Pointwise update of a level-indexed family of vectors. -/
def upd (f : Nat → Vec) (i : Nat) (v : Vec) : Nat → Vec :=
  fun j => if j = i then v else f j

/-- The per-level vector state of `Multigrid`: the `defect`, `solution` and
auxiliary `t` families (one vector per level), plus the ghost invocation
log. -/
structure MGState where
  defect : Nat → Vec
  solution : Nat → Vec
  t : Nat → Vec
  log : List (Op × Nat)

def MGState.setDefect (st : MGState) (i : Nat) (v : Vec) : MGState :=
  { st with defect := upd st.defect i v }

def MGState.setSolution (st : MGState) (i : Nat) (v : Vec) : MGState :=
  { st with solution := upd st.solution i v }

def MGState.setT (st : MGState) (i : Nat) (v : Vec) : MGState :=
  { st with t := upd st.t i v }

/-- Ghost: append one invocation record. -/
def MGState.logOp (st : MGState) (o : Op) (lv : Nat) : MGState :=
  { st with log := st.log ++ [(o, lv)] }

/-- The configuration of `Multigrid`: the level range and the operator
bindings, with the C++ destination-passing calling convention
(`f level dst src` returns the new value of `dst`). -/
structure MGOps where
  minlevel : Nat
  maxlevel : Nat
  pre_smooth : Nat → Vec → Vec → Vec
  post_smooth : Nat → Vec → Vec → Vec
  coarse : Nat → Vec → Vec → Vec
  matrix_vmult : Nat → Vec → Vec → Vec
  restrict_and_add : Nat → Vec → Vec → Vec
  prolongate : Nat → Vec → Vec → Vec
  edge_down : Option (Nat → Vec → Vec → Vec)
  edge_up : Option (Nat → Vec → Vec → Vec)

/-- Lines 54 and 62 of `level_mgstep`:
`pre_smooth->smooth(level, solution[level], defect[level])` followed by
`matrix->vmult(level, t[level], solution[level])`. -/
def preCascade (ops : MGOps) (level : Nat) (st : MGState) : MGState :=
  let st₂ := (st.logOp .preS level).setSolution level
    (ops.pre_smooth level (st.solution level) (st.defect level))
  (st₂.logOp .matV level).setT level
    (ops.matrix_vmult level (st₂.t level) (st₂.solution level))

/-- Lines 71-77 of `level_mgstep`: the body of the restriction cascade at
loop counter `l` inside the frame at `level`:
`t[l-1] = 0.`; if `l == level` and `edge_down` is set,
`edge_down->vmult(level, t[level-1], solution[level])`;
`transfer->restrict_and_add(l, t[l-1], t[l])`; `defect[l-1] -= t[l-1]`. -/
def cascadeBody (ops : MGOps) (level l : Nat) (st : MGState) : MGState :=
  let st₁ := st.setT (l - 1) (vzero (st.t (l - 1)))
  let st₂ :=
    if l = level then
      match ops.edge_down with
      | none => st₁
      | some E => (st₁.logOp .edgeDownV level).setT (level - 1)
          (E level (st₁.t (level - 1)) (st₁.solution level))
    else st₁
  let st₃ := (st₂.logOp .restrictAdd l).setT (l - 1)
    (ops.restrict_and_add l (st₂.t (l - 1)) (st₂.t l))
  st₃.setDefect (l - 1) (vsub (st₃.defect (l - 1)) (st₃.t (l - 1)))

/-- Lines 69-78 of `level_mgstep`:
`for (unsigned int l = level; l > minlevel; --l) { ... }`, entered with
loop counter `l = level`. -/
def cascade (ops : MGOps) (level : Nat) : Nat → MGState → MGState
  | 0, st => st
  | l + 1, st =>
    if ops.minlevel < l + 1 then
      cascade ops level l (cascadeBody ops level (l + 1) st)
    else st

/-- Lines 87-107 of `level_mgstep`, after the recursive call returns:
`t[level] = 0.`; `transfer->prolongate(level, t[level], solution[level-1])`;
`solution[level] += t[level]`; if `edge_up` is set,
`edge_up->Tvmult(level, t[level], solution[level-1])` and
`defect[level] -= t[level]`; finally
`post_smooth->smooth(level, solution[level], defect[level])`. -/
def postRecursion (ops : MGOps) (level : Nat) (st : MGState) : MGState :=
  let st₆ := st.setT level (vzero (st.t level))
  let st₇ := (st₆.logOp .prolong level).setT level
    (ops.prolongate level (st₆.t level) (st₆.solution (level - 1)))
  let st₈ := st₇.setSolution level (vadd (st₇.solution level) (st₇.t level))
  let st₉ :=
    match ops.edge_up with
    | none => st₈
    | some E =>
      let stA := (st₈.logOp .edgeUpT level).setT level
        (E level (st₈.t level) (st₈.solution (level - 1)))
      stA.setDefect level (vsub (stA.defect level) (stA.t level))
  (st₉.logOp .postS level).setSolution level
    (ops.post_smooth level (st₉.solution level) (st₉.defect level))

/-- `Multigrid::level_mgstep` (lines 31-115): zero `solution[level]`; at
`minlevel` run the coarse solver on `defect[level]` and return; otherwise
pre-smooth, compute the residual, run the restriction cascade, recurse at
`level - 1`, and run the prolongation / edge-up / post-smoothing tail.
The `level = 0 ≠ minlevel` branch is outside the caller contract
(`minlevel ≤ level`; there the C++ unsigned loop counters would wrap). -/
def level_mgstep (ops : MGOps) : Nat → MGState → MGState
  | level, st₀ =>
    let st₁ := (st₀.logOp .frameEnter level).setSolution level
      (vzero (st₀.solution level))
    if level = ops.minlevel then
      (st₁.logOp .coarseOp level).setSolution level
        (ops.coarse level (st₁.solution level) (st₁.defect level))
    else
      match level with
      | 0 => st₁
      | level' + 1 =>
        postRecursion ops (level' + 1)
          (level_mgstep ops level'
            (cascade ops (level' + 1) (level' + 1)
              (preCascade ops (level' + 1) st₁)))

/-- Lines 128-132 of `vcycle`: the counted reinitialisation loop
`for (level = minlevel; level <= maxlevel; ++level) { solution[level].reinit(defect[level]); t[level].reinit(defect[level]); }`,
where `reinit` shapes the vector like its argument and zero-fills it;
`n` is the remaining number of iterations. -/
def reinitFrom : Nat → Nat → MGState → MGState
  | 0, _, st => st
  | n + 1, level, st =>
    reinitFrom n (level + 1)
      ((st.setSolution level (vzero (st.defect level))).setT level
        (vzero (st.defect level)))

/-- Lines 125-132 of `vcycle`: resize `solution` and `t` to the level range
`[minlevel, maxlevel]` and reinitialise each to the shape of that level's
`defect`, zero-filled.  The `MGLevelObject::resize` range bookkeeping is
external to this component (level families are total functions here); the
per-level shaping loop is translated from the source. -/
def resize_and_reinit (ops : MGOps) (st : MGState) : MGState :=
  reinitFrom (ops.maxlevel + 1 - ops.minlevel) ops.minlevel st

/-- `Multigrid::vcycle` (lines 118-136): adjust the per-level vectors, then
run the engine starting at the finest level. -/
def vcycle (ops : MGOps) (st : MGState) : MGState :=
  level_mgstep ops ops.maxlevel (resize_and_reinit ops st)

theorem upd_self (f : Nat → Vec) (i : Nat) (v : Vec) : upd f i v i = v := by
  simp [upd]

theorem upd_other (f : Nat → Vec) (i j : Nat) (v : Vec) (h : j ≠ i) :
    upd f i v j = f j := by
  simp [upd, h]

@[simp] theorem setDefect_defect (st : MGState) (i : Nat) (v : Vec) :
    (st.setDefect i v).defect = upd st.defect i v := rfl

@[simp] theorem setDefect_solution (st : MGState) (i : Nat) (v : Vec) :
    (st.setDefect i v).solution = st.solution := rfl

@[simp] theorem setDefect_t (st : MGState) (i : Nat) (v : Vec) :
    (st.setDefect i v).t = st.t := rfl

@[simp] theorem setDefect_log (st : MGState) (i : Nat) (v : Vec) :
    (st.setDefect i v).log = st.log := rfl

@[simp] theorem setSolution_defect (st : MGState) (i : Nat) (v : Vec) :
    (st.setSolution i v).defect = st.defect := rfl

@[simp] theorem setSolution_solution (st : MGState) (i : Nat) (v : Vec) :
    (st.setSolution i v).solution = upd st.solution i v := rfl

@[simp] theorem setSolution_t (st : MGState) (i : Nat) (v : Vec) :
    (st.setSolution i v).t = st.t := rfl

@[simp] theorem setSolution_log (st : MGState) (i : Nat) (v : Vec) :
    (st.setSolution i v).log = st.log := rfl

@[simp] theorem setT_defect (st : MGState) (i : Nat) (v : Vec) :
    (st.setT i v).defect = st.defect := rfl

@[simp] theorem setT_solution (st : MGState) (i : Nat) (v : Vec) :
    (st.setT i v).solution = st.solution := rfl

@[simp] theorem setT_t (st : MGState) (i : Nat) (v : Vec) :
    (st.setT i v).t = upd st.t i v := rfl

@[simp] theorem setT_log (st : MGState) (i : Nat) (v : Vec) :
    (st.setT i v).log = st.log := rfl

@[simp] theorem logOp_defect (st : MGState) (o : Op) (lv : Nat) :
    (st.logOp o lv).defect = st.defect := rfl

@[simp] theorem logOp_solution (st : MGState) (o : Op) (lv : Nat) :
    (st.logOp o lv).solution = st.solution := rfl

@[simp] theorem logOp_t (st : MGState) (o : Op) (lv : Nat) :
    (st.logOp o lv).t = st.t := rfl

@[simp] theorem logOp_log (st : MGState) (o : Op) (lv : Nat) :
    (st.logOp o lv).log = st.log ++ [(o, lv)] := rfl

theorem MGState.ext' (a b : MGState) (hd : a.defect = b.defect)
    (hs : a.solution = b.solution) (ht : a.t = b.t) (hl : a.log = b.log) :
    a = b := by
  cases a; cases b; simp_all

@[simp] theorem vzero_length (v : Vec) : (vzero v).length = v.length := by
  simp [vzero]

@[simp] theorem vzero_vzero (v : Vec) : vzero (vzero v) = vzero v := by
  simp [vzero]

theorem vzero_eq_replicate (v : Vec) : vzero v = List.replicate v.length 0 := by
  simp [vzero]

theorem vzero_congr (a b : Vec) (h : a.length = b.length) : vzero a = vzero b := by
  rw [vzero_eq_replicate, vzero_eq_replicate, h]

theorem vadd_length (a b : Vec) : (vadd a b).length = min a.length b.length := by
  simp [vadd]

theorem vsub_length (a b : Vec) : (vsub a b).length = min a.length b.length := by
  simp [vsub]

@[simp] theorem smul_length (c : ℤ) (v : Vec) : (smul c v).length = v.length := by
  simp [smul]

theorem vadd_vzero_left (a b : Vec) (h : a.length = b.length) :
    vadd (vzero a) b = b := by
  induction a generalizing b with
  | nil =>
    cases b with
    | nil => rfl
    | cons y ys => simp at h
  | cons x xs ih =>
    cases b with
    | nil => simp at h
    | cons y ys =>
      simp only [List.length_cons, Nat.succ.injEq] at h
      simp only [vadd, vzero, List.map_cons, List.zipWith_cons_cons, zero_add]
      exact congrArg (List.cons y) (ih ys h)

theorem vsub_vzero_right (a b : Vec) (h : b.length = a.length) :
    vsub a (vzero b) = a := by
  induction a generalizing b with
  | nil => simp [vsub]
  | cons x xs ih =>
    cases b with
    | nil => simp at h
    | cons y ys =>
      simp only [List.length_cons, Nat.succ.injEq] at h
      simp only [vsub, vzero, List.map_cons, List.zipWith_cons_cons, sub_zero]
      exact congrArg (List.cons x) (ih ys h)

@[simp] theorem smul_vzero (c : ℤ) (v : Vec) : smul c (vzero v) = vzero v := by
  simp [smul, vzero, List.map_map, Function.comp_def]

@[simp] theorem vzero_smul (c : ℤ) (v : Vec) : vzero (smul c v) = vzero v := by
  simp [smul, vzero, List.map_map, Function.comp_def]

theorem smul_vadd (c : ℤ) (a b : Vec) :
    smul c (vadd a b) = vadd (smul c a) (smul c b) := by
  simp [smul, vadd, List.map_zipWith, List.zipWith_map, mul_add]

theorem smul_vsub (c : ℤ) (a b : Vec) :
    smul c (vsub a b) = vsub (smul c a) (smul c b) := by
  simp [smul, vsub, List.map_zipWith, List.zipWith_map, mul_sub]

theorem cascadeBody_t_high (ops : MGOps) (level l : Nat) (st : MGState) (j : Nat)
    (h0 : 1 ≤ l) (h : l ≤ j) : (cascadeBody ops level l st).t j = st.t j := by
  have h1 : j ≠ l - 1 := by omega
  simp only [cascadeBody]
  by_cases he : l = level
  · subst he
    cases hE : ops.edge_down with
    | none => simp [hE, upd_other, h1]
    | some E => simp [hE, upd_other, h1]
  · simp [he, upd_other, h1]

theorem cascade_t_high (ops : MGOps) (level : Nat) :
    ∀ c st j, c ≤ j → (cascade ops level c st).t j = st.t j := by
  intro c
  induction c with
  | zero => intro st j _; rfl
  | succ c ih =>
    intro st j hj
    rw [cascade]
    by_cases hc : ops.minlevel < c + 1
    · rw [if_pos hc, ih _ j (by omega), cascadeBody_t_high _ _ _ _ _ (by omega) hj]
    · rw [if_neg hc]

theorem preCascade_t_high (ops : MGOps) (level : Nat) (st : MGState) (j : Nat)
    (h : j ≠ level) : (preCascade ops level st).t j = st.t j := by
  simp [preCascade, upd_other, h]

theorem preCascade_defect (ops : MGOps) (level : Nat) (st : MGState) :
    (preCascade ops level st).defect = st.defect := rfl

theorem postRecursion_t_high (ops : MGOps) (level : Nat) (st : MGState) (j : Nat)
    (h : j ≠ level) : (postRecursion ops level st).t j = st.t j := by
  simp only [postRecursion]
  cases hE : ops.edge_up with
  | none => simp [upd_other, h]
  | some E => simp [upd_other, h]

theorem mgstep_t_high (ops : MGOps) :
    ∀ level st j, level < j → (level_mgstep ops level st).t j = st.t j := by
  intro level
  induction level using Nat.strong_induction_on with
  | _ level ih =>
    intro st j hj
    rw [level_mgstep.eq_def]
    by_cases h : level = ops.minlevel
    · simp [h]
    · cases level with
      | zero => simp [h]
      | succ level' =>
        simp only [h, if_false]
        rw [postRecursion_t_high _ _ _ _ (by omega),
          ih level' (by omega) _ j (by omega),
          cascade_t_high _ _ _ _ _ (by omega),
          preCascade_t_high _ _ _ _ (by omega)]
        simp

theorem cascadeBody_defect_high (ops : MGOps) (level l : Nat) (st : MGState) (j : Nat)
    (h0 : 1 ≤ l) (h : l ≤ j) : (cascadeBody ops level l st).defect j = st.defect j := by
  have h1 : j ≠ l - 1 := by omega
  simp only [cascadeBody]
  by_cases he : l = level
  · subst he
    cases hE : ops.edge_down with
    | none => simp [hE, upd_other, h1]
    | some E => simp [hE, upd_other, h1]
  · simp [he, upd_other, h1]

theorem cascade_defect_high (ops : MGOps) (level : Nat) :
    ∀ c st j, c ≤ j → (cascade ops level c st).defect j = st.defect j := by
  intro c
  induction c with
  | zero => intro st j _; rfl
  | succ c ih =>
    intro st j hj
    rw [cascade]
    by_cases hc : ops.minlevel < c + 1
    · rw [if_pos hc, ih _ j (by omega), cascadeBody_defect_high _ _ _ _ _ (by omega) hj]
    · rw [if_neg hc]

theorem postRecursion_defect_none (ops : MGOps) (heu : ops.edge_up = none)
    (level : Nat) (st : MGState) : (postRecursion ops level st).defect = st.defect := by
  simp [postRecursion, heu]

theorem mgstep_defect_high (ops : MGOps) (heu : ops.edge_up = none) :
    ∀ level st j, level ≤ j → (level_mgstep ops level st).defect j = st.defect j := by
  intro level
  induction level using Nat.strong_induction_on with
  | _ level ih =>
    intro st j hj
    rw [level_mgstep.eq_def]
    by_cases h : level = ops.minlevel
    · simp [h]
    · cases level with
      | zero => simp [h]
      | succ level' =>
        simp only [h, if_false]
        rw [postRecursion_defect_none ops heu,
          ih level' (by omega) _ j (by omega),
          cascade_defect_high _ _ _ _ _ (by omega),
          preCascade_defect]
        simp

theorem reinitFrom_defect : ∀ n i st, (reinitFrom n i st).defect = st.defect := by
  intro n
  induction n with
  | zero => intro i st; rfl
  | succ n ih => intro i st; rw [reinitFrom, ih]; rfl

theorem reinitFrom_log : ∀ n i st, (reinitFrom n i st).log = st.log := by
  intro n
  induction n with
  | zero => intro i st; rfl
  | succ n ih => intro i st; rw [reinitFrom, ih]; rfl

theorem reinitFrom_solution : ∀ n i st j, (reinitFrom n i st).solution j =
    if i ≤ j ∧ j < i + n then vzero (st.defect j) else st.solution j := by
  intro n
  induction n with
  | zero =>
    intro i st j
    simp only [reinitFrom]
    have : ¬(i ≤ j ∧ j < i + 0) := by omega
    rw [if_neg this]
  | succ n ih =>
    intro i st j
    rw [reinitFrom, ih]
    by_cases hji : j = i
    · subst hji
      have : j ≤ j ∧ j < j + (n + 1) := by omega
      rw [if_neg (by omega), if_pos this]
      simp [upd_self]
    · simp only [setT_defect, setSolution_defect, setT_solution, setSolution_solution]
      rw [upd_other _ _ _ _ hji]
      by_cases hr : i + 1 ≤ j ∧ j < i + 1 + n
      · rw [if_pos hr, if_pos (by omega)]
      · rw [if_neg hr, if_neg (by omega)]

theorem reinitFrom_t : ∀ n i st j, (reinitFrom n i st).t j =
    if i ≤ j ∧ j < i + n then vzero (st.defect j) else st.t j := by
  intro n
  induction n with
  | zero =>
    intro i st j
    simp only [reinitFrom]
    have : ¬(i ≤ j ∧ j < i + 0) := by omega
    rw [if_neg this]
  | succ n ih =>
    intro i st j
    rw [reinitFrom, ih]
    by_cases hji : j = i
    · subst hji
      have : j ≤ j ∧ j < j + (n + 1) := by omega
      rw [if_neg (by omega), if_pos this]
      simp [upd_self]
    · simp only [setT_defect, setSolution_defect, setT_t, setSolution_t]
      rw [upd_other _ _ _ _ hji]
      by_cases hr : i + 1 ≤ j ∧ j < i + 1 + n
      · rw [if_pos hr, if_pos (by omega)]
      · rw [if_neg hr, if_neg (by omega)]

/-- Levels at which operator `o` is invoked, in invocation order, read off
the ghost log. -/
def opLevels (o : Op) (lg : List (Op × Nat)) : List Nat :=
  (lg.filter (fun e => decide (e.1 = o))).map Prod.snd

theorem opLevels_append (o : Op) (a b : List (Op × Nat)) :
    opLevels o (a ++ b) = opLevels o a ++ opLevels o b := by
  simp [opLevels]

@[simp] theorem opLevels_nil (o : Op) : opLevels o [] = [] := rfl

@[simp] theorem opLevels_same (o : Op) (l : Nat) : opLevels o [(o, l)] = [l] := by
  simp [opLevels]

theorem opLevels_single_ne (o o' : Op) (l : Nat) (h : o' ≠ o) :
    opLevels o [(o', l)] = [] := by
  simp [opLevels, h]

/-- The list `[hi, hi - 1, ..., hi - n + 1]` (n entries descending by one). -/
def descendFrom : Nat → Nat → List Nat
  | 0, _ => []
  | n + 1, hi => hi :: descendFrom n (hi - 1)

theorem descendFrom_length : ∀ n hi, (descendFrom n hi).length = n := by
  intro n
  induction n with
  | zero => intro hi; rfl
  | succ n ih => intro hi; simp [descendFrom, ih]

theorem descendFrom_chain :
    ∀ n hi, n ≤ hi + 1 → List.Chain' (fun a b => a = b + 1) (descendFrom n hi) := by
  intro n
  induction n with
  | zero => intro hi _; simp [descendFrom]
  | succ n ih =>
    intro hi h
    cases n with
    | zero => simp [descendFrom]
    | succ m =>
      rw [descendFrom, descendFrom, List.chain'_cons]
      refine ⟨by omega, ?_⟩
      have := ih (hi - 1) (by omega)
      rwa [descendFrom] at this

theorem descendFrom_head (n hi : Nat) :
    (descendFrom (n + 1) hi).head? = some hi := rfl

theorem descendFrom_last : ∀ n hi, (descendFrom (n + 1) hi).getLast? = some (hi - n) := by
  intro n
  induction n with
  | zero => intro hi; simp [descendFrom]
  | succ m ih =>
    intro hi
    rw [descendFrom, descendFrom, List.getLast?_cons_cons]
    have := ih (hi - 1)
    rw [descendFrom] at this
    rw [this]
    congr 1
    omega

theorem preCascade_log (ops : MGOps) (level : Nat) (st : MGState) :
    (preCascade ops level st).log = st.log ++ [(Op.preS, level), (Op.matV, level)] := by
  simp [preCascade]

theorem cascadeBody_log_ne (ops : MGOps) (level l : Nat) (st : MGState) (h : l ≠ level) :
    (cascadeBody ops level l st).log = st.log ++ [(Op.restrictAdd, l)] := by
  simp [cascadeBody, h]

theorem cascadeBody_log_none (ops : MGOps) (level l : Nat) (st : MGState)
    (hed : ops.edge_down = none) :
    (cascadeBody ops level l st).log = st.log ++ [(Op.restrictAdd, l)] := by
  simp [cascadeBody, hed]

theorem cascadeBody_log_edge (ops : MGOps) (level : Nat) (st : MGState)
    (E : Nat → Vec → Vec → Vec) (hed : ops.edge_down = some E) :
    (cascadeBody ops level level st).log
      = st.log ++ [(Op.edgeDownV, level), (Op.restrictAdd, level)] := by
  simp [cascadeBody, hed]

theorem postRecursion_log_none (ops : MGOps) (level : Nat) (st : MGState)
    (heu : ops.edge_up = none) :
    (postRecursion ops level st).log = st.log ++ [(Op.prolong, level), (Op.postS, level)] := by
  simp [postRecursion, heu]

theorem postRecursion_log_some (ops : MGOps) (level : Nat) (st : MGState)
    (E : Nat → Vec → Vec → Vec) (heu : ops.edge_up = some E) :
    (postRecursion ops level st).log
      = st.log ++ [(Op.prolong, level), (Op.edgeUpT, level), (Op.postS, level)] := by
  simp [postRecursion, heu]

theorem cascadeBody_opLevels (ops : MGOps) (level l : Nat) (st : MGState) (o : Op)
    (h1 : o ≠ Op.edgeDownV) (h2 : o ≠ Op.restrictAdd) :
    opLevels o (cascadeBody ops level l st).log = opLevels o st.log := by
  by_cases he : l = level
  · cases hE : ops.edge_down with
    | none =>
      rw [cascadeBody_log_none _ _ _ _ hE, opLevels_append,
        opLevels_single_ne _ _ _ (Ne.symm h2), List.append_nil]
    | some E =>
      subst he
      rw [cascadeBody_log_edge _ _ _ _ hE]
      rw [show [(Op.edgeDownV, l), (Op.restrictAdd, l)]
          = [(Op.edgeDownV, l)] ++ [(Op.restrictAdd, l)] from rfl]
      rw [← List.append_assoc, opLevels_append, opLevels_append,
        opLevels_single_ne _ _ _ (Ne.symm h1), opLevels_single_ne _ _ _ (Ne.symm h2)]
      simp
  · rw [cascadeBody_log_ne _ _ _ _ he, opLevels_append,
      opLevels_single_ne _ _ _ (Ne.symm h2), List.append_nil]

theorem cascade_opLevels (ops : MGOps) (level : Nat) (o : Op)
    (h1 : o ≠ Op.edgeDownV) (h2 : o ≠ Op.restrictAdd) :
    ∀ c st, opLevels o (cascade ops level c st).log = opLevels o st.log := by
  intro c
  induction c with
  | zero => intro st; rfl
  | succ c ih =>
    intro st
    rw [cascade]
    by_cases hc : ops.minlevel < c + 1
    · rw [if_pos hc, ih, cascadeBody_opLevels _ _ _ _ _ h1 h2]
    · rw [if_neg hc]

theorem preCascade_opLevels (ops : MGOps) (level : Nat) (st : MGState) (o : Op)
    (h1 : o ≠ Op.preS) (h2 : o ≠ Op.matV) :
    opLevels o (preCascade ops level st).log = opLevels o st.log := by
  rw [preCascade_log]
  rw [show [(Op.preS, level), (Op.matV, level)]
      = [(Op.preS, level)] ++ [(Op.matV, level)] from rfl]
  rw [← List.append_assoc, opLevels_append, opLevels_append,
    opLevels_single_ne _ _ _ (Ne.symm h1), opLevels_single_ne _ _ _ (Ne.symm h2)]
  simp

theorem postRecursion_opLevels (ops : MGOps) (level : Nat) (st : MGState) (o : Op)
    (h1 : o ≠ Op.prolong) (h2 : o ≠ Op.edgeUpT) (h3 : o ≠ Op.postS) :
    opLevels o (postRecursion ops level st).log = opLevels o st.log := by
  cases hE : ops.edge_up with
  | none =>
    rw [postRecursion_log_none _ _ _ hE]
    rw [show [(Op.prolong, level), (Op.postS, level)]
        = [(Op.prolong, level)] ++ [(Op.postS, level)] from rfl]
    rw [← List.append_assoc, opLevels_append, opLevels_append,
      opLevels_single_ne _ _ _ (Ne.symm h1), opLevels_single_ne _ _ _ (Ne.symm h3)]
    simp
  | some E =>
    rw [postRecursion_log_some _ _ _ _ hE]
    rw [show [(Op.prolong, level), (Op.edgeUpT, level), (Op.postS, level)]
        = [(Op.prolong, level)] ++ ([(Op.edgeUpT, level)] ++ [(Op.postS, level)]) from rfl]
    rw [← List.append_assoc, opLevels_append, opLevels_append, opLevels_append,
      opLevels_single_ne _ _ _ (Ne.symm h1), opLevels_single_ne _ _ _ (Ne.symm h2),
      opLevels_single_ne _ _ _ (Ne.symm h3)]
    simp

theorem mgstep_frames (ops : MGOps) :
    ∀ level st, ops.minlevel ≤ level →
      opLevels Op.frameEnter (level_mgstep ops level st).log
        = opLevels Op.frameEnter st.log
          ++ descendFrom (level + 1 - ops.minlevel) level := by
  intro level
  induction level using Nat.strong_induction_on with
  | _ level ih =>
    intro st hlev
    rw [level_mgstep.eq_def]
    by_cases h : level = ops.minlevel
    · have e1 : level + 1 - ops.minlevel = 1 := by omega
      rw [e1]
      simp only [h, if_true]
      simp [opLevels_append, descendFrom, opLevels]
    · cases level with
      | zero => omega
      | succ level' =>
        simp only [h, if_false]
        rw [postRecursion_opLevels _ _ _ _ (by simp) (by simp) (by simp),
          ih level' (by omega) _ (by omega),
          cascade_opLevels _ _ _ (by simp) (by simp),
          preCascade_opLevels _ _ _ _ (by simp) (by simp)]
        simp only [setSolution_log, logOp_log]
        rw [opLevels_append, opLevels_same]
        have e1 : level' + 1 + 1 - ops.minlevel = (level' + 1 - ops.minlevel) + 1 := by omega
        rw [e1, descendFrom]
        simp

theorem mgstep_upLevels (ops : MGOps) (E : Nat → Vec → Vec → Vec)
    (heu : ops.edge_up = some E) :
    ∀ level st, ops.minlevel ≤ level →
      opLevels Op.edgeUpT (level_mgstep ops level st).log
        = opLevels Op.edgeUpT st.log
          ++ (List.range (level - ops.minlevel)).map (fun i => ops.minlevel + 1 + i) := by
  intro level
  induction level using Nat.strong_induction_on with
  | _ level ih =>
    intro st hlev
    rw [level_mgstep.eq_def]
    by_cases h : level = ops.minlevel
    · have e1 : level - ops.minlevel = 0 := by omega
      simp only [h, if_true, e1]
      simp [opLevels]
    · cases level with
      | zero => omega
      | succ level' =>
        simp only [h, if_false]
        rw [postRecursion_log_some _ _ _ _ heu, opLevels_append,
          ih level' (by omega) _ (by omega),
          cascade_opLevels _ _ _ (by simp) (by simp),
          preCascade_opLevels _ _ _ _ (by simp) (by simp)]
        simp only [setSolution_log, logOp_log]
        rw [opLevels_append]
        have e1 : level' + 1 - ops.minlevel = (level' - ops.minlevel) + 1 := by omega
        rw [e1, List.range_succ]
        have e2 : ops.minlevel + 1 + (level' - ops.minlevel) = level' + 1 := by omega
        simp [opLevels, e2]

theorem cascade_downLevels_lt (ops : MGOps) (level : Nat) :
    ∀ c st, c < level →
      opLevels Op.edgeDownV (cascade ops level c st).log
        = opLevels Op.edgeDownV st.log := by
  intro c
  induction c with
  | zero => intro st _; rfl
  | succ c ih =>
    intro st hc
    rw [cascade]
    by_cases hmin : ops.minlevel < c + 1
    · rw [if_pos hmin, ih _ (by omega),
        cascadeBody_log_ne _ _ _ _ (by omega), opLevels_append,
        opLevels_single_ne _ _ _ (by simp), List.append_nil]
    · rw [if_neg hmin]

theorem cascade_downLevels_top (ops : MGOps) (L : Nat) (st : MGState)
    (E : Nat → Vec → Vec → Vec) (hmin : ops.minlevel < L) (hE : ops.edge_down = some E) :
    opLevels Op.edgeDownV (cascade ops L L st).log
      = opLevels Op.edgeDownV st.log ++ [L] := by
  cases L with
  | zero => omega
  | succ L' =>
    rw [cascade, if_pos hmin, cascade_downLevels_lt _ _ _ _ (by omega),
      cascadeBody_log_edge _ _ _ _ hE, opLevels_append]
    simp [opLevels]

/-- A small concrete two-level configuration (levels 0 and 1, no edge
matrices) with simple linear operators, used to instantiate theorems with
hypotheses. -/
def opsA : MGOps where
  minlevel := 0
  maxlevel := 1
  pre_smooth := fun _ sol d => vadd sol d
  post_smooth := fun _ sol d => vadd sol d
  coarse := fun _ _sol d => d
  matrix_vmult := fun _ _d s => s
  restrict_and_add := fun _ d s => vadd d s
  prolongate := fun _ _d s => s
  edge_down := none
  edge_up := none

/-- `opsA` restricted to a single level (`minlevel = maxlevel = 0`). -/
def opsB : MGOps := { opsA with maxlevel := 0 }

/-- `opsA` with a configured edge-down matrix. -/
def opsD : MGOps := { opsA with edge_down := some (fun _ _d s => s) }

/-- `opsA` extended to three levels with a configured edge-up matrix. -/
def opsE : MGOps := { opsA with maxlevel := 2, edge_up := some (fun _ _d s => s) }

/-- A concrete initial state: one-entry vectors, `defect[0] = [5]`,
`defect[l] = [1]` for `l > 0`. -/
def stW : MGState where
  defect := fun l => if l = 0 then [5] else [1]
  solution := fun _ => [7]
  t := fun _ => [9]
  log := []

/-- C1: for a single-level hierarchy (`minlevel = maxlevel`), the cycle
driver leaves `solution[maxlevel]` equal to the coarse solver's output on
`defect[maxlevel]`, applied to the zero-initialised solution vector, and
the ghost log shows that no smoother, matrix, transfer or edge operator is
invoked: the only operator invocation of the whole cycle is the coarse
solve at `maxlevel`. -/
theorem C1_single_level (ops : MGOps) (st : MGState)
    (h : ops.minlevel = ops.maxlevel) :
    (vcycle ops st).solution ops.maxlevel
      = ops.coarse ops.maxlevel (vzero (st.defect ops.maxlevel))
          (st.defect ops.maxlevel)
    ∧ (vcycle ops st).log
      = st.log ++ [(Op.frameEnter, ops.maxlevel), (Op.coarseOp, ops.maxlevel)] := by
  have hmax : ops.maxlevel = ops.minlevel := h.symm
  simp only [vcycle, resize_and_reinit, hmax]
  have e1 : ops.minlevel + 1 - ops.minlevel = 1 := by omega
  rw [e1]
  simp only [reinitFrom]
  rw [level_mgstep.eq_def]
  simp only [if_pos rfl]
  refine ⟨?_, ?_⟩
  · simp [upd_self]
  · simp

/-- C9: the cycle driver's resize/reinitialise step is idempotent: running
it twice with unchanged level range and unchanged defect vectors leaves
every `solution[l]` and `t[l]` in exactly the state a single run produces
(and raises no error: the operation is total). -/
theorem C9_reinit_idempotent (ops : MGOps) (st : MGState) :
    resize_and_reinit ops (resize_and_reinit ops st) = resize_and_reinit ops st := by
  apply MGState.ext'
  · simp only [resize_and_reinit, reinitFrom_defect]
  · funext j
    simp only [resize_and_reinit, reinitFrom_solution, reinitFrom_defect]
    by_cases hc : ops.minlevel ≤ j ∧ j < ops.minlevel + (ops.maxlevel + 1 - ops.minlevel)
    · simp [hc]
    · simp [hc]
  · funext j
    simp only [resize_and_reinit, reinitFrom_t, reinitFrom_defect]
    by_cases hc : ops.minlevel ≤ j ∧ j < ops.minlevel + (ops.maxlevel + 1 - ops.minlevel)
    · simp [hc]
    · simp [hc]
  · simp only [resize_and_reinit, reinitFrom_log]

/-- C10: when `edge_up` is not configured, an entire cycle invocation leaves
the finest-level defect vector unchanged: every in-place defect update
targets a level strictly below the frame's level except the edge-up branch. -/
theorem C10_defect_top_unchanged (ops : MGOps) (st : MGState)
    (heu : ops.edge_up = none) :
    (vcycle ops st).defect ops.maxlevel = st.defect ops.maxlevel := by
  rw [vcycle, mgstep_defect_high ops heu _ _ _ (le_refl _), resize_and_reinit,
    reinitFrom_defect]

theorem C1_single_level_witness :
    (vcycle opsB stW).solution opsB.maxlevel
      = opsB.coarse opsB.maxlevel (vzero (stW.defect opsB.maxlevel))
          (stW.defect opsB.maxlevel)
    ∧ (vcycle opsB stW).log
      = stW.log ++ [(Op.frameEnter, opsB.maxlevel), (Op.coarseOp, opsB.maxlevel)] :=
  C1_single_level opsB stW rfl

theorem C10_defect_top_unchanged_witness :
    (vcycle opsA stW).defect opsA.maxlevel = stW.defect opsA.maxlevel :=
  C10_defect_top_unchanged opsA stW rfl

/-- The state of `vcycle opsA stW` inside the frame at level 1 immediately
before the recursive call `level_mgstep(level-1)` (line 81): driver
reinitialisation, frame entry (`solution[1] = 0.`, line 41), pre-smoothing
and residual computation (lines 54, 62), restriction cascade (lines 69-78). -/
def stC4pre : MGState :=
  cascade opsA 1 1 (preCascade opsA 1
    (((resize_and_reinit opsA stW).logOp .frameEnter 1).setSolution 1
      (vzero ((resize_and_reinit opsA stW).solution 1))))

/-- C4, counterexample: in the concrete cycle `vcycle opsA stW`, the
recursive call made from the frame at level 1 (i.e. `level_mgstep` at
level 0, applied to the pre-recursion state `stC4pre`) leaves `t[1]`
exactly as it was — still equal to the residual
`matrix_vmult(1, ·, solution[1])` stored at line 62 — contradicting the
claim that the recursive call writes `scratch[L]` so that its value
afterwards differs from `A*solution[L]`. -/
theorem C4_counterexample :
    (level_mgstep opsA 0 stC4pre).t 1 = stC4pre.t 1
    ∧ stC4pre.t 1 = opsA.matrix_vmult 1 (vzero (stW.defect 1)) (stC4pre.solution 1) := by
  decide

/-- C4, amended: the recursive call made from a V-cycle step at level `L`
runs at level `L - 1` and writes the scratch family only at levels
`≤ L - 1`; `scratch[j]` for every `j > L - 1` — in particular `scratch[L]`,
which still holds the residual `A*solution[L]` stored before the recursion —
is left unchanged by the recursive call.  (The code nevertheless re-zeroes
`scratch[L]` at line 87 before the prolongation overwrites it; the zeroing
is not forced by the recursion.) -/
theorem C4_recursive_call_scratch (ops : MGOps) (k : Nat) (st : MGState) :
    ∀ j, k < j → (level_mgstep ops k st).t j = st.t j :=
  fun j hj => mgstep_t_high ops k st j hj

theorem C4_recursive_call_scratch_witness :
    0 < 1 ∧ (level_mgstep opsA 0 stW).t 1 = stW.t 1 :=
  ⟨by decide, C4_recursive_call_scratch opsA 0 stW 1 (by decide)⟩

/-- C8: the recursion of one cycle invocation is depth-bounded and
structurally decreasing: the sequence of frame entries recorded by the
ghost log is exactly `maxlevel, maxlevel - 1, ..., minlevel` — each
recursive call decreases the level by exactly one, the recursion bottoms
out at `minlevel`, and the depth is `maxlevel - minlevel + 1`.  (That the
cycle always completes and returns a result is intrinsic: `vcycle` is a
total function.) -/
theorem C8_recursion_depth (ops : MGOps) (st : MGState)
    (h : ops.minlevel ≤ ops.maxlevel) :
    opLevels Op.frameEnter (vcycle ops st).log
      = opLevels Op.frameEnter st.log
        ++ descendFrom (ops.maxlevel + 1 - ops.minlevel) ops.maxlevel
    ∧ (descendFrom (ops.maxlevel + 1 - ops.minlevel) ops.maxlevel).length
      = ops.maxlevel - ops.minlevel + 1
    ∧ List.Chain' (fun a b => a = b + 1)
        (descendFrom (ops.maxlevel + 1 - ops.minlevel) ops.maxlevel)
    ∧ (descendFrom (ops.maxlevel + 1 - ops.minlevel) ops.maxlevel).head?
      = some ops.maxlevel
    ∧ (descendFrom (ops.maxlevel + 1 - ops.minlevel) ops.maxlevel).getLast?
      = some ops.minlevel := by
  refine ⟨?_, ?_, ?_, ?_, ?_⟩
  · rw [vcycle, mgstep_frames ops _ _ h, resize_and_reinit, reinitFrom_log]
  · rw [descendFrom_length]; omega
  · exact descendFrom_chain _ _ (by omega)
  · have e : ops.maxlevel + 1 - ops.minlevel = (ops.maxlevel - ops.minlevel) + 1 := by
      omega
    rw [e, descendFrom_head]
  · have e : ops.maxlevel + 1 - ops.minlevel = (ops.maxlevel - ops.minlevel) + 1 := by
      omega
    rw [e, descendFrom_last]
    congr 1
    omega

theorem C8_recursion_depth_witness :
    opLevels Op.frameEnter (vcycle opsE stW).log
      = opLevels Op.frameEnter stW.log
        ++ descendFrom (opsE.maxlevel + 1 - opsE.minlevel) opsE.maxlevel
    ∧ (descendFrom (opsE.maxlevel + 1 - opsE.minlevel) opsE.maxlevel).length
      = opsE.maxlevel - opsE.minlevel + 1
    ∧ List.Chain' (fun a b => a = b + 1)
        (descendFrom (opsE.maxlevel + 1 - opsE.minlevel) opsE.maxlevel)
    ∧ (descendFrom (opsE.maxlevel + 1 - opsE.minlevel) opsE.maxlevel).head?
      = some opsE.maxlevel
    ∧ (descendFrom (opsE.maxlevel + 1 - opsE.minlevel) opsE.maxlevel).getLast?
      = some opsE.minlevel :=
  C8_recursion_depth opsE stW (by decide)

/-- C3, counterexample: in the concrete three-level cycle `vcycle opsE stW`
(`minlevel = 0`, `maxlevel = 2`, `edge_up` configured), the edge-up
operator's `Tvmult` is invoked twice, and one of the invocations carries
level argument 1, an intermediate level below `maxlevel = 2` — refuting
"invoked at most once, and only at the top level". -/
theorem C3_counterexample :
    (opLevels Op.edgeUpT (vcycle opsE stW).log).length = 2
    ∧ 1 ∈ opLevels Op.edgeUpT (vcycle opsE stW).log
    ∧ opsE.maxlevel = 2 := by
  decide

/-- C3, amended: when `edge_up` is configured, its `Tvmult` is invoked
exactly once per recursion frame during the ascent, at every level from
`minlevel + 1` up to `maxlevel` in that order — i.e. `maxlevel - minlevel`
times per cycle invocation, not only at the top level. -/
theorem C3_edge_up_every_ascent_level (ops : MGOps) (st : MGState)
    (E : Nat → Vec → Vec → Vec) (h : ops.minlevel ≤ ops.maxlevel)
    (heu : ops.edge_up = some E) :
    opLevels Op.edgeUpT (vcycle ops st).log
      = opLevels Op.edgeUpT st.log
        ++ (List.range (ops.maxlevel - ops.minlevel)).map
            (fun i => ops.minlevel + 1 + i) := by
  rw [vcycle, mgstep_upLevels ops E heu _ _ h, resize_and_reinit, reinitFrom_log]

theorem C3_edge_up_every_ascent_level_witness :
    opLevels Op.edgeUpT (vcycle opsE stW).log
      = opLevels Op.edgeUpT stW.log
        ++ (List.range (opsE.maxlevel - opsE.minlevel)).map
            (fun i => opsE.minlevel + 1 + i) :=
  C3_edge_up_every_ascent_level opsE stW (fun _ _d s => s) (by decide) rfl

/-- C6: within the restriction cascade of one V-cycle step at level `L`
(`L > minlevel`), a configured edge-down operator is applied exactly once,
at the topmost pass `l = L` of the cascade (its call carries level argument
`L` and targets `scratch[L-1]`); the cascade body at any counter `l ≠ L`
performs no edge-down invocation, regardless of configuration. -/
theorem C6_edge_down_topmost (ops : MGOps) (L : Nat) (st : MGState)
    (E : Nat → Vec → Vec → Vec) (hmin : ops.minlevel < L)
    (hE : ops.edge_down = some E) :
    opLevels Op.edgeDownV (cascade ops L L st).log
      = opLevels Op.edgeDownV st.log ++ [L]
    ∧ ∀ l st', l ≠ L →
        opLevels Op.edgeDownV (cascadeBody ops L l st').log
          = opLevels Op.edgeDownV st'.log := by
  constructor
  · exact cascade_downLevels_top ops L st E hmin hE
  · intro l st' hl
    rw [cascadeBody_log_ne _ _ _ _ hl, opLevels_append,
      opLevels_single_ne _ _ _ (by simp), List.append_nil]

theorem C6_edge_down_topmost_witness :
    opLevels Op.edgeDownV (cascade opsD 1 1 stW).log
      = opLevels Op.edgeDownV stW.log ++ [1]
    ∧ ∀ l st', l ≠ 1 →
        opLevels Op.edgeDownV (cascadeBody opsD 1 l st').log
          = opLevels Op.edgeDownV st'.log :=
  C6_edge_down_topmost opsD 1 stW (fun _ _d s => s) (by decide) rfl

theorem cascadeBody_t_val_noedge (ops : MGOps) (L l : Nat) (st : MGState)
    (h0 : 1 ≤ l) (h : l ≠ L ∨ ops.edge_down = none) :
    (cascadeBody ops L l st).t (l - 1)
      = ops.restrict_and_add l (vzero (st.t (l - 1))) (st.t l) := by
  have hne : l ≠ l - 1 := by omega
  rcases h with h | h
  · simp [cascadeBody, h, upd, hne]
  · simp [cascadeBody, h, upd, hne]

theorem cascadeBody_t_val_edge (ops : MGOps) (L : Nat) (st : MGState)
    (E : Nat → Vec → Vec → Vec) (h0 : 1 ≤ L) (hE : ops.edge_down = some E) :
    (cascadeBody ops L L st).t (L - 1)
      = ops.restrict_and_add L (E L (vzero (st.t (L - 1))) (st.solution L))
          (st.t L) := by
  have hne : L ≠ L - 1 := by omega
  simp [cascadeBody, hE, upd, hne]

theorem cascadeBody_defect_val (ops : MGOps) (L l : Nat) (st : MGState)
    (h0 : 1 ≤ l) :
    (cascadeBody ops L l st).defect (l - 1)
      = vsub (st.defect (l - 1)) ((cascadeBody ops L l st).t (l - 1)) := by
  have hne : l ≠ l - 1 := by omega
  by_cases h : l = L
  · cases hE : ops.edge_down with
    | none => simp [cascadeBody, h, hE, upd, hne]
    | some E => simp [cascadeBody, h, hE, upd, hne]
  · simp [cascadeBody, h, upd, hne]

/-- C2: one pass of the restriction cascade at loop counter `l`
(`minlevel < l ≤ L`) inside the V-cycle step at level `L`, under the
documented operator contracts (`restrict_and_add l dst src` accumulates the
restriction `R l src` onto `dst`; a configured edge-down `vmult` overwrites
its destination with `Ed lv src`): the loop at counter `l` performs exactly
one step of the cascade and moves to counter `l - 1`; `defect[l-1]` is
replaced by `defect[l-1] - scratch[l-1]` where `scratch[l-1]` is the value
just accumulated; that accumulated value is exactly the restriction
`R l scratch[l]` when `l ≠ L` or no edge-down is configured, and exactly the
edge-down contribution of `solution[L]` plus the restriction when `l = L`
and edge-down is configured. -/
theorem C2_restriction_cascade_step (ops : MGOps) (R Ed : Nat → Vec → Vec)
    (hra : ∀ l d s, ops.restrict_and_add l d s = vadd d (R l s))
    (hed : ∀ E, ops.edge_down = some E → ∀ lv d s, E lv d s = Ed lv s)
    (L l : Nat) (st : MGState) (hmin : ops.minlevel < l) (hL : l ≤ L)
    (hlen : (R l (st.t l)).length = (st.t (l - 1)).length) :
    cascade ops L l st = cascade ops L (l - 1) (cascadeBody ops L l st)
    ∧ (cascadeBody ops L l st).defect (l - 1)
        = vsub (st.defect (l - 1)) ((cascadeBody ops L l st).t (l - 1))
    ∧ ((l ≠ L ∨ ops.edge_down = none) →
        (cascadeBody ops L l st).t (l - 1) = R l (st.t l))
    ∧ (∀ E, l = L → ops.edge_down = some E →
        (cascadeBody ops L l st).t (l - 1)
          = vadd (Ed L (st.solution L)) (R l (st.t l))) := by
  refine ⟨?_, ?_, ?_, ?_⟩
  · cases l with
    | zero => omega
    | succ l' =>
      rw [cascade, if_pos hmin]
      simp
  · exact cascadeBody_defect_val ops L l st (by omega)
  · intro h
    rw [cascadeBody_t_val_noedge ops L l st (by omega) h, hra,
      vadd_vzero_left _ _ (by simpa using hlen.symm)]
  · intro E hl hE
    subst hl
    rw [cascadeBody_t_val_edge ops l st E (by omega) hE, hra, hed E hE]

theorem C2_restriction_cascade_step_witness :
    (cascade opsA 1 1 stW = cascade opsA 1 0 (cascadeBody opsA 1 1 stW))
    ∧ (cascadeBody opsA 1 1 stW).defect 0
        = vsub (stW.defect 0) ((cascadeBody opsA 1 1 stW).t 0)
    ∧ ((1 ≠ 1 ∨ opsA.edge_down = none) →
        (cascadeBody opsA 1 1 stW).t 0 = stW.t 1)
    ∧ (∀ E, 1 = 1 → opsA.edge_down = some E →
        (cascadeBody opsA 1 1 stW).t 0 = vadd ([] : Vec) (stW.t 1)) :=
  C2_restriction_cascade_step opsA (fun _ s => s) (fun _ _s => ([] : Vec))
    (fun _ _ _ => rfl) (fun E h => by cases h) 1 1 stW (by decide) (by decide)
    (by decide)

/-- The zero-returning no-op operator of the spec's C5 experiment: its
product is the zero vector of the destination's shape. -/
def zeroEdgeOp : Nat → Vec → Vec → Vec := fun _ d _ => vzero d

/-- The spec's C5 experiment configuration: both edge operators replaced by
zero-returning no-ops. -/
def zeroEdgeOps (ops : MGOps) : MGOps :=
  { ops with edge_down := some zeroEdgeOp, edge_up := some zeroEdgeOp }

/-- Destination-shape contract of the deal.II operator interfaces: the
result has the shape of the destination vector passed in. -/
def KeepsLen (f : Nat → Vec → Vec → Vec) : Prop :=
  ∀ l d s, (f l d s).length = d.length

/-- Well-shaped state on the active level range: each scratch vector has
its level's defect shape. -/
def WSr (ops : MGOps) (S : MGState) : Prop :=
  ∀ j, ops.minlevel ≤ j → j ≤ ops.maxlevel → (S.t j).length = (S.defect j).length

theorem upd_refl (f : Nat → Vec) (i : Nat) : upd f i (f i) = f := by
  funext j
  by_cases h : j = i <;> simp [upd, h]

theorem cascadeBody_solution (ops : MGOps) (level l : Nat) (st : MGState) :
    (cascadeBody ops level l st).solution = st.solution := by
  by_cases h : l = level
  · cases hE : ops.edge_down with
    | none => simp [cascadeBody, h, hE]
    | some E => simp [cascadeBody, h, hE]
  · simp [cascadeBody, h]

theorem cascadeBody_t_ne (ops : MGOps) (level l : Nat) (st : MGState) (j : Nat)
    (h0 : 1 ≤ l) (hj : j ≠ l - 1) : (cascadeBody ops level l st).t j = st.t j := by
  by_cases h : l = level
  · subst h
    cases hE : ops.edge_down with
    | none => simp [cascadeBody, hE, upd_other, hj]
    | some E => simp [cascadeBody, hE, upd_other, hj]
  · simp [cascadeBody, h, upd_other, hj]

theorem cascadeBody_defect_ne (ops : MGOps) (level l : Nat) (st : MGState) (j : Nat)
    (hj : j ≠ l - 1) : (cascadeBody ops level l st).defect j = st.defect j := by
  by_cases h : l = level
  · subst h
    cases hE : ops.edge_down with
    | none => simp [cascadeBody, hE, upd_other, hj]
    | some E => simp [cascadeBody, hE, upd_other, hj]
  · simp [cascadeBody, h, upd_other, hj]

theorem cascadeBody_t_val_zeroEdge (ops : MGOps) (L l : Nat) (st : MGState)
    (h0 : 1 ≤ l) :
    (cascadeBody (zeroEdgeOps ops) L l st).t (l - 1)
      = ops.restrict_and_add l (vzero (st.t (l - 1))) (st.t l) := by
  by_cases h : l = L
  · subst h
    rw [cascadeBody_t_val_edge (zeroEdgeOps ops) l st zeroEdgeOp h0 rfl]
    simp [zeroEdgeOps, zeroEdgeOp]
  · rw [cascadeBody_t_val_noedge (zeroEdgeOps ops) L l st h0 (Or.inl h)]
    simp [zeroEdgeOps]

theorem cascadeBody_WSr (ops : MGOps) (hed : ops.edge_down = none)
    (hr : KeepsLen ops.restrict_and_add) (L l : Nat) (h0 : ops.minlevel < l)
    (st : MGState) (hws : WSr ops st) : WSr ops (cascadeBody ops L l st) := by
  intro j hj1 hj2
  by_cases hj : j = l - 1
  · subst hj
    rw [cascadeBody_t_val_noedge ops L l st (by omega) (Or.inr hed),
      cascadeBody_defect_val ops L l st (by omega),
      cascadeBody_t_val_noedge ops L l st (by omega) (Or.inr hed)]
    rw [vsub_length, hr, vzero_length]
    have := hws (l - 1) hj1 hj2
    omega
  · rw [cascadeBody_t_ne ops L l st j (by omega) hj,
      cascadeBody_defect_ne ops L l st j hj]
    exact hws j hj1 hj2

theorem cascade_WSr (ops : MGOps) (hed : ops.edge_down = none)
    (hr : KeepsLen ops.restrict_and_add) (L : Nat) :
    ∀ c st, WSr ops st → WSr ops (cascade ops L c st) := by
  intro c
  induction c with
  | zero => intro st h; exact h
  | succ c ih =>
    intro st h
    rw [cascade]
    by_cases hc : ops.minlevel < c + 1
    · rw [if_pos hc]
      exact ih _ (cascadeBody_WSr ops hed hr L (c + 1) hc st h)
    · rw [if_neg hc]
      exact h

theorem preCascade_WSr (ops : MGOps) (hm : KeepsLen ops.matrix_vmult)
    (level : Nat) (st : MGState) (hws : WSr ops st) :
    WSr ops (preCascade ops level st) := by
  intro j hj1 hj2
  simp only [preCascade, setT_t, setT_defect, logOp_t, logOp_defect,
    setSolution_t, setSolution_defect]
  by_cases hj : j = level
  · subst hj
    rw [upd_self, hm]
    exact hws j hj1 hj2
  · rw [upd_other _ _ _ _ hj]
    exact hws j hj1 hj2

theorem preCascade_solution_eq (ops ops' : MGOps) (level : Nat) (A B : MGState)
    (hpre : ops'.pre_smooth = ops.pre_smooth)
    (hdef : B.defect = A.defect) (hsol : B.solution = A.solution) :
    (preCascade ops' level B).solution = (preCascade ops level A).solution := by
  simp [preCascade, hpre, hdef, hsol]


theorem cascadeBody_zeroEdge (ops : MGOps) (L l : Nat)
    (hed : ops.edge_down = none) (h0 : ops.minlevel < l) (A B : MGState)
    (hdef : B.defect = A.defect) (hsol : B.solution = A.solution)
    (ht : ∀ j, l ≤ j → B.t j = A.t j)
    (htlen : ∀ j, (B.t j).length = (A.t j).length) :
    (cascadeBody (zeroEdgeOps ops) L l B).defect = (cascadeBody ops L l A).defect
    ∧ (cascadeBody (zeroEdgeOps ops) L l B).solution
        = (cascadeBody ops L l A).solution
    ∧ (∀ j, l - 1 ≤ j →
        (cascadeBody (zeroEdgeOps ops) L l B).t j = (cascadeBody ops L l A).t j)
    ∧ (∀ j, ((cascadeBody (zeroEdgeOps ops) L l B).t j).length
        = ((cascadeBody ops L l A).t j).length) := by
  have hveq : ops.restrict_and_add l (vzero (B.t (l - 1))) (B.t l)
      = ops.restrict_and_add l (vzero (A.t (l - 1))) (A.t l) := by
    rw [vzero_congr _ _ (htlen (l - 1)), ht l (le_refl l)]
  have htB : (cascadeBody (zeroEdgeOps ops) L l B).t (l - 1)
      = ops.restrict_and_add l (vzero (A.t (l - 1))) (A.t l) := by
    rw [cascadeBody_t_val_zeroEdge ops L l B (by omega), hveq]
  have htA : (cascadeBody ops L l A).t (l - 1)
      = ops.restrict_and_add l (vzero (A.t (l - 1))) (A.t l) :=
    cascadeBody_t_val_noedge ops L l A (by omega) (Or.inr hed)
  refine ⟨?_, ?_, ?_, ?_⟩
  · funext j
    by_cases hj : j = l - 1
    · subst hj
      rw [cascadeBody_defect_val _ _ _ _ (by omega),
        cascadeBody_defect_val _ _ _ _ (by omega), htB, htA, hdef]
    · rw [cascadeBody_defect_ne _ _ _ _ _ hj, cascadeBody_defect_ne _ _ _ _ _ hj,
        hdef]
  · rw [cascadeBody_solution, cascadeBody_solution, hsol]
  · intro j hj
    by_cases hj1 : j = l - 1
    · subst hj1; rw [htB, htA]
    · rw [cascadeBody_t_ne _ _ _ _ _ (by omega) hj1,
        cascadeBody_t_ne _ _ _ _ _ (by omega) hj1]
      exact ht j (by omega)
  · intro j
    by_cases hj1 : j = l - 1
    · subst hj1; rw [htB, htA]
    · rw [cascadeBody_t_ne _ _ _ _ _ (by omega) hj1,
        cascadeBody_t_ne _ _ _ _ _ (by omega) hj1]
      exact htlen j

theorem cascade_zeroEdge (ops : MGOps) (L : Nat) (hed : ops.edge_down = none) :
    ∀ c A B, B.defect = A.defect → B.solution = A.solution →
      (∀ j, c ≤ j → B.t j = A.t j) →
      (∀ j, (B.t j).length = (A.t j).length) →
      (cascade (zeroEdgeOps ops) L c B).defect = (cascade ops L c A).defect
      ∧ (cascade (zeroEdgeOps ops) L c B).solution = (cascade ops L c A).solution
      ∧ (∀ j, min c ops.minlevel ≤ j →
          (cascade (zeroEdgeOps ops) L c B).t j = (cascade ops L c A).t j)
      ∧ (∀ j, ((cascade (zeroEdgeOps ops) L c B).t j).length
          = ((cascade ops L c A).t j).length) := by
  intro c
  induction c with
  | zero =>
    intro A B hdef hsol ht htlen
    exact ⟨hdef, hsol, fun j _ => ht j (by omega), htlen⟩
  | succ c ih =>
    intro A B hdef hsol ht htlen
    rw [cascade, cascade]
    have hmin : (zeroEdgeOps ops).minlevel = ops.minlevel := rfl
    rw [hmin]
    by_cases hc : ops.minlevel < c + 1
    · rw [if_pos hc, if_pos hc]
      obtain ⟨h1, h2, h3, h4⟩ :=
        cascadeBody_zeroEdge ops L (c + 1) hed hc A B hdef hsol ht htlen
      obtain ⟨g1, g2, g3, g4⟩ :=
        ih (cascadeBody ops L (c + 1) A) (cascadeBody (zeroEdgeOps ops) L (c + 1) B)
          h1 h2 (fun j hj => h3 j (by omega)) h4
      refine ⟨g1, g2, ?_, g4⟩
      intro j hj
      exact g3 j (by omega)
    · rw [if_neg hc, if_neg hc]
      exact ⟨hdef, hsol, fun j hj => ht j (by omega), htlen⟩

theorem upd_upd (f : Nat → Vec) (i : Nat) (a b : Vec) :
    upd (upd f i a) i b = upd f i b := by
  funext j
  by_cases h : j = i <;> simp [upd, h]

theorem postRecursion_fields_none (ops : MGOps) (heu : ops.edge_up = none)
    (k : Nat) (st : MGState) :
    (postRecursion ops k st).defect = st.defect
    ∧ (postRecursion ops k st).solution
        = upd st.solution k (ops.post_smooth k
            (vadd (st.solution k)
              (ops.prolongate k (vzero (st.t k)) (st.solution (k - 1))))
            (st.defect k))
    ∧ (postRecursion ops k st).t
        = upd st.t k (ops.prolongate k (vzero (st.t k)) (st.solution (k - 1))) := by
  refine ⟨?_, ?_, ?_⟩ <;>
    simp [postRecursion, heu, upd_upd, upd_self]

theorem postRecursion_fields_zeroEdge (ops : MGOps) (k : Nat) (st : MGState) :
    (postRecursion (zeroEdgeOps ops) k st).defect
      = upd st.defect k (vsub (st.defect k)
          (vzero (ops.prolongate k (vzero (st.t k)) (st.solution (k - 1)))))
    ∧ (postRecursion (zeroEdgeOps ops) k st).solution
        = upd st.solution k (ops.post_smooth k
            (vadd (st.solution k)
              (ops.prolongate k (vzero (st.t k)) (st.solution (k - 1))))
            (vsub (st.defect k)
              (vzero (ops.prolongate k (vzero (st.t k)) (st.solution (k - 1))))))
    ∧ (postRecursion (zeroEdgeOps ops) k st).t
        = upd st.t k
            (vzero (ops.prolongate k (vzero (st.t k)) (st.solution (k - 1)))) := by
  refine ⟨?_, ?_, ?_⟩ <;>
    simp [postRecursion, zeroEdgeOps, zeroEdgeOp, upd_upd, upd_self]

theorem postRecursion_zeroEdge (ops : MGOps) (heu : ops.edge_up = none)
    (hp : KeepsLen ops.prolongate) (k : Nat) (A B : MGState)
    (hdef : B.defect = A.defect) (hsol : B.solution = A.solution)
    (ht : ∀ j, k ≤ j → B.t j = A.t j)
    (htlen : ∀ j, (B.t j).length = (A.t j).length)
    (hlen : (A.t k).length = (A.defect k).length) :
    (postRecursion (zeroEdgeOps ops) k B).defect = (postRecursion ops k A).defect
    ∧ (postRecursion (zeroEdgeOps ops) k B).solution
        = (postRecursion ops k A).solution
    ∧ (∀ j, k < j →
        (postRecursion (zeroEdgeOps ops) k B).t j = (postRecursion ops k A).t j)
    ∧ (∀ j, ((postRecursion (zeroEdgeOps ops) k B).t j).length
        = ((postRecursion ops k A).t j).length) := by
  obtain ⟨a1, a2, a3⟩ := postRecursion_fields_none ops heu k A
  obtain ⟨b1, b2, b3⟩ := postRecursion_fields_zeroEdge ops k B
  have hPB : ops.prolongate k (vzero (B.t k)) (B.solution (k - 1))
      = ops.prolongate k (vzero (A.t k)) (A.solution (k - 1)) := by
    rw [ht k (le_refl k), hsol]
  have hPlen : (ops.prolongate k (vzero (A.t k)) (A.solution (k - 1))).length
      = (A.defect k).length := by
    rw [hp, vzero_length, hlen]
  have hsub : vsub (B.defect k)
      (vzero (ops.prolongate k (vzero (A.t k)) (A.solution (k - 1))))
      = B.defect k :=
    vsub_vzero_right _ _ (by rw [hPlen, hdef])
  refine ⟨?_, ?_, ?_, ?_⟩
  · rw [b1, a1, hPB, hsub, hdef, upd_refl]
  · rw [b2, a2, hPB, hsub, hdef, hsol]
  · intro j hj
    rw [b3, a3, upd_other _ _ _ _ (by omega), upd_other _ _ _ _ (by omega)]
    exact ht j (by omega)
  · intro j
    rw [b3, a3]
    by_cases hj : j = k
    · subst hj
      rw [upd_self, upd_self, hPB, vzero_length]
    · rw [upd_other _ _ _ _ hj, upd_other _ _ _ _ hj]
      exact htlen j

theorem mgstep_base (ops : MGOps) (st : MGState) :
    level_mgstep ops ops.minlevel st
      = (((st.logOp .frameEnter ops.minlevel).setSolution ops.minlevel
            (vzero (st.solution ops.minlevel))).logOp .coarseOp ops.minlevel).setSolution
          ops.minlevel
          (ops.coarse ops.minlevel (vzero (st.solution ops.minlevel))
            (st.defect ops.minlevel)) := by
  rw [level_mgstep.eq_def]
  simp [upd_self]

theorem mgstep_step (ops : MGOps) (k : Nat) (st : MGState)
    (h : k + 1 ≠ ops.minlevel) :
    level_mgstep ops (k + 1) st
      = postRecursion ops (k + 1)
          (level_mgstep ops k
            (cascade ops (k + 1) (k + 1)
              (preCascade ops (k + 1)
                ((st.logOp .frameEnter (k + 1)).setSolution (k + 1)
                  (vzero (st.solution (k + 1))))))) := by
  rw [level_mgstep.eq_def]
  simp [h]

theorem preCascade_t_val (ops : MGOps) (level : Nat) (st : MGState) :
    (preCascade ops level st).t level
      = ops.matrix_vmult level (st.t level)
          (ops.pre_smooth level (st.solution level) (st.defect level)) := by
  simp [preCascade, upd_self]

theorem mgstep_base_at (ops : MGOps) (k : Nat) (st : MGState)
    (h : k = ops.minlevel) :
    level_mgstep ops k st
      = (((st.logOp .frameEnter k).setSolution k
            (vzero (st.solution k))).logOp .coarseOp k).setSolution k
          (ops.coarse k (vzero (st.solution k)) (st.defect k)) := by
  subst h
  exact mgstep_base ops st

theorem mgstep_zeroEdge (ops : MGOps) (hed : ops.edge_down = none)
    (heu : ops.edge_up = none) (hm : KeepsLen ops.matrix_vmult)
    (hr : KeepsLen ops.restrict_and_add) (hp : KeepsLen ops.prolongate) :
    ∀ k, ops.minlevel ≤ k → k ≤ ops.maxlevel →
      ∀ A B, B.defect = A.defect → B.solution = A.solution →
        (∀ j, k ≤ j → B.t j = A.t j) →
        (∀ j, (B.t j).length = (A.t j).length) →
        WSr ops A →
        (level_mgstep (zeroEdgeOps ops) k B).defect
          = (level_mgstep ops k A).defect
        ∧ (level_mgstep (zeroEdgeOps ops) k B).solution
          = (level_mgstep ops k A).solution
        ∧ (∀ j, k < j →
            (level_mgstep (zeroEdgeOps ops) k B).t j = (level_mgstep ops k A).t j)
        ∧ (∀ j, ((level_mgstep (zeroEdgeOps ops) k B).t j).length
            = ((level_mgstep ops k A).t j).length) := by
  intro k
  induction k using Nat.strong_induction_on with
  | _ k ih =>
    intro hk1 hk2 A B hdef hsol ht htlen hws
    by_cases hbase : k = ops.minlevel
    · rw [mgstep_base_at (zeroEdgeOps ops) k B hbase, mgstep_base_at ops k A hbase]
      have hco : (zeroEdgeOps ops).coarse = ops.coarse := rfl
      refine ⟨by simp [hdef], ?_, fun j hj => by simp; exact ht j (by omega),
        fun j => by simp; exact htlen j⟩
      simp only [setSolution_solution, logOp_solution, setSolution_defect,
        logOp_defect, upd_upd, hco]
      rw [hsol, hdef]
    · cases k with
      | zero => omega
      | succ k'' =>
        rw [mgstep_step (zeroEdgeOps ops) k'' B
            (show k'' + 1 ≠ (zeroEdgeOps ops).minlevel from hbase),
          mgstep_step ops k'' A hbase]
        set A1 := (A.logOp .frameEnter (k'' + 1)).setSolution (k'' + 1)
          (vzero (A.solution (k'' + 1))) with hA1
        set B1 := (B.logOp .frameEnter (k'' + 1)).setSolution (k'' + 1)
          (vzero (B.solution (k'' + 1))) with hB1
        have hdef1 : B1.defect = A1.defect := by simpa [hA1, hB1] using hdef
        have hsol1 : B1.solution = A1.solution := by
          simp only [hA1, hB1, setSolution_solution, logOp_solution, hsol]
        have ht1 : ∀ j, k'' + 1 ≤ j → B1.t j = A1.t j := by
          intro j hj; simpa [hA1, hB1] using ht j hj
        have htlen1 : ∀ j, (B1.t j).length = (A1.t j).length := by
          intro j; simpa [hA1, hB1] using htlen j
        have hws1 : WSr ops A1 := by
          intro j h1 h2; simpa [hA1] using hws j h1 h2
        set A2 := preCascade ops (k'' + 1) A1 with hA2
        set B2 := preCascade (zeroEdgeOps ops) (k'' + 1) B1 with hB2
        have hdef2 : B2.defect = A2.defect := by
          rw [hA2, hB2, preCascade_defect, preCascade_defect]; exact hdef1
        have hsol2 : B2.solution = A2.solution :=
          preCascade_solution_eq ops (zeroEdgeOps ops) (k'' + 1) A1 B1 rfl hdef1 hsol1
        have ht2top : B2.t (k'' + 1) = A2.t (k'' + 1) := by
          rw [hA2, hB2, preCascade_t_val, preCascade_t_val]
          have e1 : (zeroEdgeOps ops).matrix_vmult = ops.matrix_vmult := rfl
          have e2 : (zeroEdgeOps ops).pre_smooth = ops.pre_smooth := rfl
          rw [e1, e2, ht1 (k'' + 1) (le_refl _), hsol1, hdef1]
        have ht2 : ∀ j, k'' + 1 ≤ j → B2.t j = A2.t j := by
          intro j hj
          by_cases hjk : j = k'' + 1
          · subst hjk; exact ht2top
          · rw [hA2, hB2, preCascade_t_high _ _ _ _ hjk,
              preCascade_t_high _ _ _ _ hjk]
            exact ht1 j hj
        have htlen2 : ∀ j, (B2.t j).length = (A2.t j).length := by
          intro j
          by_cases hjk : j = k'' + 1
          · subst hjk; rw [ht2top]
          · rw [hA2, hB2, preCascade_t_high _ _ _ _ hjk,
              preCascade_t_high _ _ _ _ hjk]
            exact htlen1 j
        have hws2 : WSr ops A2 := preCascade_WSr ops hm (k'' + 1) A1 hws1
        set A3 := cascade ops (k'' + 1) (k'' + 1) A2 with hA3
        set B3 := cascade (zeroEdgeOps ops) (k'' + 1) (k'' + 1) B2 with hB3
        obtain ⟨hdef3, hsol3, ht3, htlen3⟩ :=
          cascade_zeroEdge ops (k'' + 1) hed (k'' + 1) A2 B2 hdef2 hsol2 ht2 htlen2
        have hws3 : WSr ops A3 := cascade_WSr ops hed hr (k'' + 1) (k'' + 1) A2 hws2
        obtain ⟨hdef4, hsol4, ht4, htlen4⟩ :=
          ih k'' (by omega) (by omega) (by omega) A3 B3 hdef3 hsol3
            (fun j hj => ht3 j (by omega)) htlen3 hws3
        have hlen4 : ((level_mgstep ops k'' A3).t (k'' + 1)).length
            = ((level_mgstep ops k'' A3).defect (k'' + 1)).length := by
          rw [mgstep_t_high ops k'' A3 (k'' + 1) (by omega),
            mgstep_defect_high ops heu k'' A3 (k'' + 1) (by omega),
            hA3, cascade_t_high ops (k'' + 1) (k'' + 1) A2 (k'' + 1) (le_refl _),
            cascade_defect_high ops (k'' + 1) (k'' + 1) A2 (k'' + 1) (le_refl _),
            hA2, preCascade_t_val, preCascade_defect, hm]
          have e : A1.t (k'' + 1) = A.t (k'' + 1) := by simp [hA1]
          have e2 : A1.defect (k'' + 1) = A.defect (k'' + 1) := by simp [hA1]
          rw [e, e2]
          exact hws (k'' + 1) hk1 hk2
        exact postRecursion_zeroEdge ops heu hp (k'' + 1)
          (level_mgstep ops k'' A3) (level_mgstep (zeroEdgeOps ops) k'' B3)
          hdef4 hsol4 (fun j hj => ht4 j (by omega)) htlen4 hlen4

/-- `opsA` with the destination-shape-preserving operator variants used to
witness the shape-contract hypotheses. -/
def opsK : MGOps :=
  { opsA with
    matrix_vmult := fun _ d _s => d
    restrict_and_add := fun _ d _s => d
    prolongate := fun _ d _s => d }

/-- C5, counterexample: in the concrete two-level cycle over `opsA`
(edge operators null) versus the same configuration with both edge
operators replaced by zero-returning no-ops, the final scratch vector at
level 1 differs: the zero-op `edge_up->Tvmult` overwrites `t[1]` with the
zero vector, where the null-edge run leaves the prolongated coarse
correction there.  So the two runs do not produce identical scratch
vectors, refuting the claim as stated. -/
theorem C5_counterexample :
    (vcycle (zeroEdgeOps opsA) stW).t 1 ≠ (vcycle opsA stW).t 1 := by
  decide

/-- C5, amended: with both edge operators null versus both replaced by
zero-returning no-ops, a cycle produces identical final `defect` and
`solution` vectors at every level (under the destination-shape contracts of
the matrix, restriction and prolongation operators); the scratch vectors
may differ, because the zero-op `edge_up` overwrites `scratch[L]` with the
zero vector in every frame `L > minlevel`. -/
theorem C5_zero_edge_equivalence (ops : MGOps) (st : MGState)
    (hminmax : ops.minlevel ≤ ops.maxlevel)
    (hed : ops.edge_down = none) (heu : ops.edge_up = none)
    (hm : KeepsLen ops.matrix_vmult) (hr : KeepsLen ops.restrict_and_add)
    (hp : KeepsLen ops.prolongate) :
    ∀ l, (vcycle (zeroEdgeOps ops) st).defect l = (vcycle ops st).defect l
      ∧ (vcycle (zeroEdgeOps ops) st).solution l = (vcycle ops st).solution l := by
  have hws : WSr ops (resize_and_reinit ops st) := by
    intro j h1 h2
    rw [resize_and_reinit, reinitFrom_t, reinitFrom_defect,
      if_pos (by omega : ops.minlevel ≤ j ∧
        j < ops.minlevel + (ops.maxlevel + 1 - ops.minlevel))]
    rw [vzero_length]
  obtain ⟨h1, h2, _, _⟩ :=
    mgstep_zeroEdge ops hed heu hm hr hp ops.maxlevel hminmax (le_refl _)
      (resize_and_reinit ops st) (resize_and_reinit ops st) rfl rfl
      (fun _ _ => rfl) (fun _ => rfl) hws
  intro l
  rw [vcycle, vcycle,
    show (zeroEdgeOps ops).maxlevel = ops.maxlevel from rfl,
    show resize_and_reinit (zeroEdgeOps ops) st = resize_and_reinit ops st from rfl]
  exact ⟨congrFun h1 l, congrFun h2 l⟩

theorem C5_zero_edge_equivalence_witness :
    (vcycle (zeroEdgeOps opsK) stW).defect 1 = (vcycle opsK stW).defect 1
    ∧ (vcycle (zeroEdgeOps opsK) stW).solution 1 = (vcycle opsK stW).solution 1 :=
  C5_zero_edge_equivalence opsK stW (by decide) rfl rfl (fun _ _ _ => rfl)
    (fun _ _ _ => rfl) (fun _ _ _ => rfl) 1

/-- Joint linearity of a destination-passing operator in its two vector
arguments (additivity and homogeneity). -/
def IsLinearOp (f : Nat → Vec → Vec → Vec) : Prop :=
  (∀ l d₁ s₁ d₂ s₂, f l (vadd d₁ d₂) (vadd s₁ s₂) = vadd (f l d₁ s₁) (f l d₂ s₂))
  ∧ (∀ c l d s, f l (smul c d) (smul c s) = smul c (f l d s))

/-- Scale every pre-populated defect vector by `c`. -/
def scaleDefect (c : ℤ) (st : MGState) : MGState :=
  { st with defect := fun l => smul c (st.defect l) }

/-- The scaling relation between two states on the active level range:
every component of `C` is the `c`-scaling of the corresponding component
of `A`. -/
def ScaledOn (ops : MGOps) (c : ℤ) (A C : MGState) : Prop :=
  ∀ j, ops.minlevel ≤ j → j ≤ ops.maxlevel →
    C.defect j = smul c (A.defect j) ∧ C.solution j = smul c (A.solution j)
    ∧ C.t j = smul c (A.t j)

theorem preCascade_solution_val (ops : MGOps) (level : Nat) (st : MGState) :
    (preCascade ops level st).solution
      = upd st.solution level
          (ops.pre_smooth level (st.solution level) (st.defect level)) := by
  simp [preCascade]

theorem postRecursion_fields_some (ops : MGOps) (E : Nat → Vec → Vec → Vec)
    (heu : ops.edge_up = some E) (k : Nat) (hk : 1 ≤ k) (st : MGState) :
    (postRecursion ops k st).defect
      = upd st.defect k (vsub (st.defect k)
          (E k (ops.prolongate k (vzero (st.t k)) (st.solution (k - 1)))
            (st.solution (k - 1))))
    ∧ (postRecursion ops k st).solution
        = upd st.solution k (ops.post_smooth k
            (vadd (st.solution k)
              (ops.prolongate k (vzero (st.t k)) (st.solution (k - 1))))
            (vsub (st.defect k)
              (E k (ops.prolongate k (vzero (st.t k)) (st.solution (k - 1)))
                (st.solution (k - 1)))))
    ∧ (postRecursion ops k st).t
        = upd st.t k
            (E k (ops.prolongate k (vzero (st.t k)) (st.solution (k - 1)))
              (st.solution (k - 1))) := by
  have hne : k - 1 ≠ k := by omega
  refine ⟨?_, ?_, ?_⟩ <;>
  · simp [postRecursion, heu, upd_upd, upd_self]
    rw [upd_other _ _ _ _ hne]

theorem cascadeBody_scale (ops : MGOps) (c : ℤ)
    (hra : IsLinearOp ops.restrict_and_add)
    (hedd : ∀ E, ops.edge_down = some E → IsLinearOp E)
    (level l : Nat) (hl : ops.minlevel < l) (hll : l ≤ level)
    (hlm : level ≤ ops.maxlevel) (A C : MGState)
    (hrel : ScaledOn ops c A C) :
    ScaledOn ops c (cascadeBody ops level l A) (cascadeBody ops level l C) := by
  have hA1 := hrel (l - 1) (by omega) (by omega)
  have hAl := hrel l (by omega) (by omega)
  have hAL := hrel level (by omega) hlm
  have hval : (cascadeBody ops level l C).t (l - 1)
      = smul c ((cascadeBody ops level l A).t (l - 1)) := by
    by_cases he : l = level
    · subst he
      cases hE : ops.edge_down with
      | none =>
        rw [cascadeBody_t_val_noedge _ _ _ _ (by omega) (Or.inr hE),
          cascadeBody_t_val_noedge _ _ _ _ (by omega) (Or.inr hE),
          hA1.2.2, hAl.2.2, vzero_smul]
        nth_rewrite 1 [← smul_vzero c (A.t (l - 1))]
        rw [hra.2]
      | some E =>
        rw [cascadeBody_t_val_edge _ _ _ _ (by omega) hE,
          cascadeBody_t_val_edge _ _ _ _ (by omega) hE,
          hA1.2.2, hAL.2.1, hAl.2.2, vzero_smul]
        nth_rewrite 1 [← smul_vzero c (A.t (l - 1))]
        rw [(hedd E hE).2, hra.2]
    · rw [cascadeBody_t_val_noedge _ _ _ _ (by omega) (Or.inl he),
        cascadeBody_t_val_noedge _ _ _ _ (by omega) (Or.inl he),
        hA1.2.2, hAl.2.2, vzero_smul]
      nth_rewrite 1 [← smul_vzero c (A.t (l - 1))]
      rw [hra.2]
  intro j hj1 hj2
  by_cases hj : j = l - 1
  · subst hj
    refine ⟨?_, ?_, hval⟩
    · rw [cascadeBody_defect_val _ _ _ _ (by omega),
        cascadeBody_defect_val _ _ _ _ (by omega), hval, hA1.1, smul_vsub]
    · rw [cascadeBody_solution, cascadeBody_solution]
      exact hA1.2.1
  · refine ⟨?_, ?_, ?_⟩
    · rw [cascadeBody_defect_ne _ _ _ _ _ hj, cascadeBody_defect_ne _ _ _ _ _ hj]
      exact (hrel j hj1 hj2).1
    · rw [cascadeBody_solution, cascadeBody_solution]
      exact (hrel j hj1 hj2).2.1
    · rw [cascadeBody_t_ne _ _ _ _ _ (by omega) hj,
        cascadeBody_t_ne _ _ _ _ _ (by omega) hj]
      exact (hrel j hj1 hj2).2.2

theorem preCascade_scale (ops : MGOps) (c : ℤ)
    (hpre : IsLinearOp ops.pre_smooth) (hmat : IsLinearOp ops.matrix_vmult)
    (k : Nat) (hk1 : ops.minlevel ≤ k) (hk2 : k ≤ ops.maxlevel) (A C : MGState)
    (hrel : ScaledOn ops c A C) :
    ScaledOn ops c (preCascade ops k A) (preCascade ops k C) := by
  have hAk := hrel k hk1 hk2
  have hsolval : ops.pre_smooth k (C.solution k) (C.defect k)
      = smul c (ops.pre_smooth k (A.solution k) (A.defect k)) := by
    rw [hAk.2.1, hAk.1, hpre.2]
  have htval : (preCascade ops k C).t k = smul c ((preCascade ops k A).t k) := by
    rw [preCascade_t_val, preCascade_t_val, hsolval, hAk.2.2, hmat.2]
  intro j hj1 hj2
  refine ⟨?_, ?_, ?_⟩
  · rw [preCascade_defect, preCascade_defect]
    exact (hrel j hj1 hj2).1
  · rw [preCascade_solution_val, preCascade_solution_val]
    by_cases hj : j = k
    · subst hj; rw [upd_self, upd_self]; exact hsolval
    · rw [upd_other _ _ _ _ hj, upd_other _ _ _ _ hj]
      exact (hrel j hj1 hj2).2.1
  · by_cases hj : j = k
    · subst hj; exact htval
    · rw [preCascade_t_high _ _ _ _ hj, preCascade_t_high _ _ _ _ hj]
      exact (hrel j hj1 hj2).2.2

theorem cascade_scale (ops : MGOps) (c : ℤ)
    (hra : IsLinearOp ops.restrict_and_add)
    (hedd : ∀ E, ops.edge_down = some E → IsLinearOp E)
    (level : Nat) (hlm : level ≤ ops.maxlevel) :
    ∀ cnt, cnt ≤ level → ∀ A C, ScaledOn ops c A C →
      ScaledOn ops c (cascade ops level cnt A) (cascade ops level cnt C) := by
  intro cnt
  induction cnt with
  | zero => intro _ A C h; exact h
  | succ cnt ih =>
    intro hcl A C h
    rw [cascade, cascade]
    by_cases hc : ops.minlevel < cnt + 1
    · rw [if_pos hc, if_pos hc]
      exact ih (by omega) _ _
        (cascadeBody_scale ops c hra hedd level (cnt + 1) hc hcl hlm A C h)
    · rw [if_neg hc, if_neg hc]
      exact h

theorem postRecursion_scale (ops : MGOps) (c : ℤ)
    (hpro : IsLinearOp ops.prolongate) (hpost : IsLinearOp ops.post_smooth)
    (hedu : ∀ E, ops.edge_up = some E → IsLinearOp E)
    (k : Nat) (hk0 : ops.minlevel < k) (hk2 : k ≤ ops.maxlevel) (A C : MGState)
    (hrel : ScaledOn ops c A C) :
    ScaledOn ops c (postRecursion ops k A) (postRecursion ops k C) := by
  have hAk := hrel k (by omega) hk2
  have hAk1 := hrel (k - 1) (by omega) (by omega)
  have hPval : ops.prolongate k (vzero (C.t k)) (C.solution (k - 1))
      = smul c (ops.prolongate k (vzero (A.t k)) (A.solution (k - 1))) := by
    rw [hAk.2.2, hAk1.2.1, vzero_smul]
    nth_rewrite 1 [← smul_vzero c (A.t k)]
    rw [hpro.2]
  cases hE : ops.edge_up with
  | none =>
    obtain ⟨a1, a2, a3⟩ := postRecursion_fields_none ops hE k A
    obtain ⟨c1, c2, c3⟩ := postRecursion_fields_none ops hE k C
    intro j hj1 hj2
    refine ⟨?_, ?_, ?_⟩
    · rw [a1, c1]
      exact (hrel j hj1 hj2).1
    · rw [a2, c2]
      by_cases hj : j = k
      · subst hj
        rw [upd_self, upd_self, hPval, hAk.2.1, hAk.1, ← smul_vadd, hpost.2]
      · rw [upd_other _ _ _ _ hj, upd_other _ _ _ _ hj]
        exact (hrel j hj1 hj2).2.1
    · rw [a3, c3]
      by_cases hj : j = k
      · subst hj; rw [upd_self, upd_self, hPval]
      · rw [upd_other _ _ _ _ hj, upd_other _ _ _ _ hj]
        exact (hrel j hj1 hj2).2.2
  | some E =>
    obtain ⟨a1, a2, a3⟩ := postRecursion_fields_some ops E hE k (by omega) A
    obtain ⟨c1, c2, c3⟩ := postRecursion_fields_some ops E hE k (by omega) C
    have hEval : E k (ops.prolongate k (vzero (C.t k)) (C.solution (k - 1)))
        (C.solution (k - 1))
        = smul c (E k (ops.prolongate k (vzero (A.t k)) (A.solution (k - 1)))
            (A.solution (k - 1))) := by
      rw [hPval, hAk1.2.1, (hedu E hE).2]
    intro j hj1 hj2
    refine ⟨?_, ?_, ?_⟩
    · rw [a1, c1]
      by_cases hj : j = k
      · subst hj; rw [upd_self, upd_self, hEval, hAk.1, smul_vsub]
      · rw [upd_other _ _ _ _ hj, upd_other _ _ _ _ hj]
        exact (hrel j hj1 hj2).1
    · rw [a2, c2]
      by_cases hj : j = k
      · subst hj
        rw [upd_self, upd_self, hEval, hPval, hAk.2.1, hAk.1, ← smul_vadd,
          ← smul_vsub, hpost.2]
      · rw [upd_other _ _ _ _ hj, upd_other _ _ _ _ hj]
        exact (hrel j hj1 hj2).2.1
    · rw [a3, c3]
      by_cases hj : j = k
      · subst hj; rw [upd_self, upd_self, hEval]
      · rw [upd_other _ _ _ _ hj, upd_other _ _ _ _ hj]
        exact (hrel j hj1 hj2).2.2

theorem mgstep_scale (ops : MGOps) (c : ℤ)
    (hpre : IsLinearOp ops.pre_smooth) (hpost : IsLinearOp ops.post_smooth)
    (hco : IsLinearOp ops.coarse) (hmat : IsLinearOp ops.matrix_vmult)
    (hra : IsLinearOp ops.restrict_and_add) (hpro : IsLinearOp ops.prolongate)
    (hedd : ∀ E, ops.edge_down = some E → IsLinearOp E)
    (hedu : ∀ E, ops.edge_up = some E → IsLinearOp E) :
    ∀ k, ops.minlevel ≤ k → k ≤ ops.maxlevel →
      ∀ A C, ScaledOn ops c A C →
        ScaledOn ops c (level_mgstep ops k A) (level_mgstep ops k C) := by
  intro k
  induction k using Nat.strong_induction_on with
  | _ k ih =>
    intro hk1 hk2 A C hrel
    by_cases hbase : k = ops.minlevel
    · rw [mgstep_base_at ops k A hbase, mgstep_base_at ops k C hbase]
      have hAk := hrel k hk1 hk2
      intro j hj1 hj2
      refine ⟨by simp; exact (hrel j hj1 hj2).1, ?_,
        by simp; exact (hrel j hj1 hj2).2.2⟩
      simp only [setSolution_solution, logOp_solution, setSolution_defect,
        logOp_defect, upd_upd]
      by_cases hj : j = k
      · subst hj
        rw [upd_self, upd_self, hAk.1, hAk.2.1, vzero_smul]
        nth_rewrite 1 [← smul_vzero c (A.solution j)]
        rw [hco.2]
      · rw [upd_other _ _ _ _ hj, upd_other _ _ _ _ hj]
        exact (hrel j hj1 hj2).2.1
    · cases k with
      | zero => omega
      | succ k'' =>
        rw [mgstep_step ops k'' A hbase, mgstep_step ops k'' C hbase]
        have hrel1 : ScaledOn ops c
            ((A.logOp .frameEnter (k'' + 1)).setSolution (k'' + 1)
              (vzero (A.solution (k'' + 1))))
            ((C.logOp .frameEnter (k'' + 1)).setSolution (k'' + 1)
              (vzero (C.solution (k'' + 1)))) := by
          intro j hj1 hj2
          have h := hrel j hj1 hj2
          have hk := hrel (k'' + 1) hk1 hk2
          refine ⟨by simpa using h.1, ?_, by simpa using h.2.2⟩
          simp only [setSolution_solution, logOp_solution]
          by_cases hj : j = k'' + 1
          · subst hj
            rw [upd_self, upd_self, hk.2.1, vzero_smul, smul_vzero]
          · rw [upd_other _ _ _ _ hj, upd_other _ _ _ _ hj]
            exact h.2.1
        exact postRecursion_scale ops c hpro hpost hedu (k'' + 1) (by omega) hk2 _ _
          (ih k'' (by omega) (by omega) (by omega) _ _
            (cascade_scale ops c hra hedd (k'' + 1) hk2 (k'' + 1) (le_refl _) _ _
              (preCascade_scale ops c hpre hmat (k'' + 1) hk1 hk2 _ _ hrel1)))

/-- C7: if every configured operator is a linear map (jointly in its two
vector arguments), then scaling every pre-populated defect vector by a
constant `c` before invoking the cycle driver scales the resulting
`solution[maxlevel]` by exactly `c` (exact arithmetic). -/
theorem C7_linearity (ops : MGOps) (st : MGState) (c : ℤ)
    (hminmax : ops.minlevel ≤ ops.maxlevel)
    (hpre : IsLinearOp ops.pre_smooth) (hpost : IsLinearOp ops.post_smooth)
    (hco : IsLinearOp ops.coarse) (hmat : IsLinearOp ops.matrix_vmult)
    (hra : IsLinearOp ops.restrict_and_add) (hpro : IsLinearOp ops.prolongate)
    (hedd : ∀ E, ops.edge_down = some E → IsLinearOp E)
    (hedu : ∀ E, ops.edge_up = some E → IsLinearOp E) :
    (vcycle ops (scaleDefect c st)).solution ops.maxlevel
      = smul c ((vcycle ops st).solution ops.maxlevel) := by
  have hrel0 : ScaledOn ops c (resize_and_reinit ops st)
      (resize_and_reinit ops (scaleDefect c st)) := by
    intro j hj1 hj2
    have hin : ops.minlevel ≤ j ∧
        j < ops.minlevel + (ops.maxlevel + 1 - ops.minlevel) := by omega
    refine ⟨?_, ?_, ?_⟩
    · rw [resize_and_reinit, resize_and_reinit, reinitFrom_defect,
        reinitFrom_defect]
      rfl
    · rw [resize_and_reinit, resize_and_reinit, reinitFrom_solution,
        reinitFrom_solution, if_pos hin, if_pos hin]
      rw [show (scaleDefect c st).defect j = smul c (st.defect j) from rfl,
        vzero_smul, smul_vzero]
    · rw [resize_and_reinit, resize_and_reinit, reinitFrom_t, reinitFrom_t,
        if_pos hin, if_pos hin]
      rw [show (scaleDefect c st).defect j = smul c (st.defect j) from rfl,
        vzero_smul, smul_vzero]
  rw [vcycle, vcycle]
  exact (mgstep_scale ops c hpre hpost hco hmat hra hpro hedd hedu
    ops.maxlevel hminmax (le_refl _) _ _ hrel0 ops.maxlevel hminmax
    (le_refl _)).2.1

/-- A two-level configuration whose operators are all projections, hence
linear maps, used to witness the linearity hypotheses of C7. -/
def opsL : MGOps where
  minlevel := 0
  maxlevel := 1
  pre_smooth := fun _ sol _d => sol
  post_smooth := fun _ sol _d => sol
  coarse := fun _ _sol d => d
  matrix_vmult := fun _ _d s => s
  restrict_and_add := fun _ d _s => d
  prolongate := fun _ _d s => s
  edge_down := none
  edge_up := none

theorem C7_linearity_witness :
    (vcycle opsL (scaleDefect 3 stW)).solution opsL.maxlevel
      = smul 3 ((vcycle opsL stW).solution opsL.maxlevel) :=
  C7_linearity opsL stW 3 (by decide)
    ⟨fun _ _ _ _ _ => rfl, fun _ _ _ _ => rfl⟩
    ⟨fun _ _ _ _ _ => rfl, fun _ _ _ _ => rfl⟩
    ⟨fun _ _ _ _ _ => rfl, fun _ _ _ _ => rfl⟩
    ⟨fun _ _ _ _ _ => rfl, fun _ _ _ _ => rfl⟩
    ⟨fun _ _ _ _ _ => rfl, fun _ _ _ _ => rfl⟩
    ⟨fun _ _ _ _ _ => rfl, fun _ _ _ _ => rfl⟩
    (fun E h => by cases h) (fun E h => by cases h)
